import Mathlib

/-!
Verification development for the amgcl conjugate-gradient solver
(`src/amgcl/solver/cg.hpp`).

The solver is a C++ class template over a `Backend`; we embed it as a small
state machine over vectors `Fin n → α` for a linear-ordered field `α`
(the scalar `value_type` of the backend).  The backend primitives
(`amgcl/backend/interface.hpp` is not part of the sources at hand) are
modelled from the specification of the backend capability contract; the
`norm` primitive is kept as an explicit function parameter `nrm`, since the
Euclidean norm is not definable over an abstract ordered field, and an
exact rational Euclidean norm is supplied for concrete instances.
-/

namespace amgcl

/-- Vectors of dimension `n` over scalars `α`. -/
abbrev Vec (n : ℕ) (α : Type) := Fin n → α

namespace backend

variable {n : ℕ} {α : Type} [LinearOrderedField α]

/-- Modelled from the spec: matrix–vector product used by `spmv` and
`residual`; a matrix is a function `Fin n → Fin n → α`. -/
def mulVec (A : Fin n → Fin n → α) (x : Vec n α) : Vec n α :=
  fun i => ∑ j, A i j * x j

/-- Modelled from the spec: `residual(rhs, A, x, out)` computes
`out := rhs - A·x`. -/
def residual (rhs : Vec n α) (A : Fin n → Fin n → α) (x : Vec n α) : Vec n α :=
  fun i => rhs i - mulVec A x i

/-- Modelled from the spec: `inner_product(u, v)`. -/
def inner_product (u v : Vec n α) : α := ∑ i, u i * v i

/-- Modelled from the spec: `axpby(a, x, b, y)` computes `y := a·x + b·y`. -/
def axpby (a : α) (x : Vec n α) (b : α) (y : Vec n α) : Vec n α :=
  fun i => a * x i + b * y i

/-- Modelled from the spec: `copy(src, dst)` overwrites `dst` with `src`. -/
def copy (src : Vec n α) : Vec n α := src

/-- Modelled from the spec: `spmv(a, A, x, b, y)` computes
`y := a·A·x + b·y`. -/
def spmv (a : α) (A : Fin n → Fin n → α) (x : Vec n α) (b : α) (y : Vec n α) :
    Vec n α :=
  fun i => a * mulVec A x i + b * y i

/-- Modelled from the spec: `clear(v)` zero-fills `v`. -/
def clear (_v : Vec n α) : Vec n α := fun _ => 0

end backend

/-- Solver parameters (`cg::params`): maximum iteration count and target
relative residual. -/
structure Params (α : Type) where
  maxiter : ℕ
  tol : α

/-- Default-constructed parameters, from
`params(size_t maxiter = 100, value_type tol = 1e-8)`. -/
def Params.mkDefault {α : Type} [LinearOrderedField α] : Params α :=
  ⟨100, 1 / 10 ^ 8⟩

/-- The full state visible to one call of `cg::operator()(A, P, rhs, x)`:
the borrowed system matrix `A`, preconditioner `P` (its `operator()`),
right-hand side `rhs` and parameters `prm`; the caller's solution vector
`x`; the engine scratch vectors `r, s, p, q`; and the call-local scalars
`rho1, rho2` and counter `iter`. -/
@[ext]
structure CGState (n : ℕ) (α : Type) where
  A : Fin n → Fin n → α
  P : Vec n α → Vec n α
  rhs : Vec n α
  x : Vec n α
  r : Vec n α
  s : Vec n α
  p : Vec n α
  q : Vec n α
  rho1 : α
  rho2 : α
  iter : ℕ
  prm : Params α

variable {n : ℕ} {α : Type} [LinearOrderedField α]

/-- One iteration of the loop body of `cg::operator()(A, P, rhs, x)`
(cg.hpp lines 132–150), including the final `++iter` of the `for`
statement. -/
def cg_step (st : CGState n α) : CGState n α :=
  let s := st.P st.r
  let rho2 := st.rho1
  let rho1 := backend.inner_product st.r s
  let p := if st.iter ≠ 0 then backend.axpby 1 s (rho1 / rho2) st.p
           else backend.copy s
  let q := backend.spmv 1 st.A p 0 st.q
  let alpha := rho1 / backend.inner_product q p
  let x := backend.axpby alpha p 1 st.x
  let r := backend.axpby (-alpha) q 1 st.r
  { st with s := s, rho2 := rho2, rho1 := rho1, p := p, q := q,
            x := x, r := r, iter := st.iter + 1 }

/-- The loop-continuation condition of the `for` statement:
`res > prm.tol && iter < prm.maxiter` where `res = nrm r / N`. -/
def cg_cond (nrm : Vec n α → α) (N : α) (st : CGState n α) : Prop :=
  nrm st.r / N > st.prm.tol ∧ st.iter < st.prm.maxiter

instance (nrm : Vec n α → α) (N : α) (st : CGState n α) :
    Decidable (cg_cond nrm N st) :=
  inferInstanceAs (Decidable (_ ∧ _))

/-- The `for` loop of `cg::operator()` (cg.hpp line 132), with the residual
check at the top of each round; `fuel` bounds the recursion and is
instantiated with `prm.maxiter`, so that it never runs out before the
`iter < prm.maxiter` test fails.  Returns the exit state together with the
last computed relative residual `res`. -/
def cg_loop (nrm : Vec n α → α) (N : α) : ℕ → CGState n α → CGState n α × α
  | 0, st => (st, nrm st.r / N)
  | fuel + 1, st =>
    if cg_cond nrm N st then cg_loop nrm N fuel (cg_step st)
    else (st, nrm st.r / N)

/-- The entry sequence of `cg::operator()(A, P, rhs, x)` before the loop
(cg.hpp lines 119–129): `r := rhs - A·x`, `rho1 = rho2 = 0`, `iter = 0`. -/
def cg_init (st : CGState n α) : CGState n α :=
  { st with r := backend.residual st.rhs st.A st.x,
            rho1 := 0, rho2 := 0, iter := 0 }

/-- The four-argument `cg::operator()(A, P, rhs, x)` (cg.hpp lines
111–153): compute the initial residual and `norm_of_rhs`; short-circuit on
a zero right-hand side (clear `x`, return `(0, norm_of_rhs)`); otherwise
run the loop and return the final state with `(iter, res)`. -/
def cg_solve (nrm : Vec n α → α) (st0 : CGState n α) : CGState n α × ℕ × α :=
  let st := cg_init st0
  let N := nrm st.rhs
  if N = 0 then
    ({ st with x := backend.clear st.x }, 0, N)
  else
    let out := cg_loop nrm N st.prm.maxiter st
    (out.1, out.1.iter, out.2)

/-- The preconditioner capability contract: callable application plus
`top_matrix()` access to the underlying system matrix. -/
structure Precond (n : ℕ) (α : Type) where
  apply : Vec n α → Vec n α
  top_matrix : Fin n → Fin n → α

/-- The three-argument `cg::operator()(P, rhs, x)` (cg.hpp lines 161–169):
delegates to the four-argument form with `A := P.top_matrix()`. -/
def cg_solve3 (nrm : Vec n α → α) (pr : Precond n α) (st : CGState n α) :
    CGState n α × ℕ × α :=
  cg_solve nrm { st with A := pr.top_matrix, P := pr.apply }

/-- Modelled from the spec: `backend::norm` is the Euclidean norm
(`amgcl/backend/interface.hpp` is not among the sources at hand); this
rational model via `Rat.sqrt` is exact on every vector whose squared norm
is the square of a rational, which holds for all vectors the concrete
instances below encounter. -/
def nrmEuclid {n : ℕ} (v : Vec n ℚ) : ℚ := Rat.sqrt (∑ i, v i * v i)

/-- Each executed loop round as worded by the specification, §4.3 step 4:
`s := P(r)`; `rho2 := rho1`; `rho1 := ⟨r,s⟩`; `p := s` on the first round
and `p := s + (rho1/rho2)·p` afterwards; `q := A·p`;
`alpha := rho1 / ⟨q,p⟩`; `x := x + alpha·p`; `r := r - alpha·q`;
increment `iter`.  Written with plain vector arithmetic, to be compared
against `cg_step`, which is transcribed from the code via the backend
primitives. -/
def claimStep (st : CGState n α) : CGState n α :=
  let s := st.P st.r
  let rho2 := st.rho1
  let rho1 := ∑ i, st.r i * s i
  let p : Vec n α := if st.iter = 0 then s
                     else fun i => s i + (rho1 / rho2) * st.p i
  let q : Vec n α := fun i => ∑ j, st.A i j * p j
  let alpha := rho1 / ∑ i, q i * p i
  { st with s := s, rho2 := rho2, rho1 := rho1, p := p, q := q,
            x := fun i => st.x i + alpha * p i,
            r := fun i => st.r i - alpha * q i,
            iter := st.iter + 1 }

/-- Residual-coherence invariant maintained by the loop: the scratch
vector `r` holds exactly `rhs - A·x` for the current iterate `x`. -/
def resInv (st : CGState n α) : Prop :=
  st.r = backend.residual st.rhs st.A st.x

/-- Concrete system: `1×1` identity system `x = 1` with identity
preconditioner, start `x = 0`, parameters `(maxiter, tol)`. -/
def stUnit (m : ℕ) (tol : ℚ) : CGState 1 ℚ :=
  { A := ![![1]], P := id, rhs := ![1], x := ![0],
    r := ![0], s := ![0], p := ![0], q := ![0],
    rho1 := 0, rho2 := 0, iter := 0, prm := ⟨m, tol⟩ }

/-- Concrete system with default-constructed parameters. -/
def stUnitDefault : CGState 1 ℚ :=
  { A := ![![1]], P := id, rhs := ![1], x := ![0],
    r := ![0], s := ![0], p := ![0], q := ![0],
    rho1 := 0, rho2 := 0, iter := 0, prm := Params.mkDefault }

/-- Concrete call with an all-zero right-hand side and a nonzero initial
`x`, with `maxiter = 0`. -/
def stZeroRhs : CGState 1 ℚ :=
  { A := ![![0]], P := id, rhs := ![0], x := ![1],
    r := ![0], s := ![0], p := ![0], q := ![0],
    rho1 := 0, rho2 := 0, iter := 0, prm := ⟨0, 1 / 2⟩ }

/-- Concrete system whose matrix is all-zero, so that `⟨q, p⟩ = 0` on the
very first iteration while the relative residual stays `1 > tol = 0`. -/
def stZeroMat : CGState 1 ℚ :=
  { A := ![![0]], P := id, rhs := ![1], x := ![0],
    r := ![0], s := ![0], p := ![0], q := ![0],
    rho1 := 0, rho2 := 0, iter := 0, prm := ⟨1, 0⟩ }

/-- Concrete system whose preconditioner returns the zero vector, so that
`rho1 = 0` after the first iteration and hence `rho2 = 0` inside the
second one. -/
def stZeroPre : CGState 1 ℚ :=
  { A := ![![1]], P := fun _ => ![0], rhs := ![1], x := ![0],
    r := ![0], s := ![0], p := ![0], q := ![0],
    rho1 := 0, rho2 := 0, iter := 0, prm := ⟨2, 0⟩ }

/-- Concrete ill-conditioned system `diag(1, 10)·x = (4, 3)` with identity
preconditioner and `tol = 1/100`, parametrized by `maxiter`: one CG round
increases the Euclidean residual norm from `5` to `270/53`. -/
def stMono (m : ℕ) : CGState 2 ℚ :=
  { A := ![![1, 0], ![0, 10]], P := id, rhs := ![4, 3], x := ![0, 0],
    r := ![0, 0], s := ![0, 0], p := ![0, 0], q := ![0, 0],
    rho1 := 0, rho2 := 0, iter := 0, prm := ⟨m, 1 / 100⟩ }

/-! ### Basic facts about one loop round -/

theorem cg_step_A (st : CGState n α) : (cg_step st).A = st.A := rfl

theorem cg_step_P (st : CGState n α) : (cg_step st).P = st.P := rfl

theorem cg_step_rhs (st : CGState n α) : (cg_step st).rhs = st.rhs := rfl

theorem cg_step_prm (st : CGState n α) : (cg_step st).prm = st.prm := rfl

theorem cg_step_iter (st : CGState n α) : (cg_step st).iter = st.iter + 1 := rfl

theorem iterate_step_A (j : ℕ) (st : CGState n α) :
    (cg_step^[j] st).A = st.A := by
  induction j generalizing st with
  | zero => rfl
  | succ j ih => rw [Function.iterate_succ_apply]; rw [ih, cg_step_A]

theorem iterate_step_P (j : ℕ) (st : CGState n α) :
    (cg_step^[j] st).P = st.P := by
  induction j generalizing st with
  | zero => rfl
  | succ j ih => rw [Function.iterate_succ_apply]; rw [ih, cg_step_P]

theorem iterate_step_rhs (j : ℕ) (st : CGState n α) :
    (cg_step^[j] st).rhs = st.rhs := by
  induction j generalizing st with
  | zero => rfl
  | succ j ih => rw [Function.iterate_succ_apply]; rw [ih, cg_step_rhs]

theorem iterate_step_prm (j : ℕ) (st : CGState n α) :
    (cg_step^[j] st).prm = st.prm := by
  induction j generalizing st with
  | zero => rfl
  | succ j ih => rw [Function.iterate_succ_apply]; rw [ih, cg_step_prm]

theorem iterate_step_iter (j : ℕ) (st : CGState n α) :
    (cg_step^[j] st).iter = st.iter + j := by
  induction j generalizing st with
  | zero => rfl
  | succ j ih =>
      rw [Function.iterate_succ_apply, ih, cg_step_iter]
      omega

/-- Matrix–vector products distribute over `axpby` combinations. -/
theorem mulVec_axpby (A : Fin n → Fin n → α) (a b : α) (p x : Vec n α)
    (i : Fin n) :
    backend.mulVec A (backend.axpby a p b x) i
      = a * backend.mulVec A p i + b * backend.mulVec A x i := by
  simp only [backend.mulVec, backend.axpby]
  rw [Finset.mul_sum, Finset.mul_sum, ← Finset.sum_add_distrib]
  exact Finset.sum_congr rfl fun j _ => by ring

/-- One loop round keeps `r = rhs - A·x` in sync with the updated `x`. -/
theorem cg_step_resInv (st : CGState n α) (h : resInv st) :
    resInv (cg_step st) := by
  unfold resInv backend.residual at h ⊢
  funext i
  simp only [cg_step]
  simp only [h]
  rw [mulVec_axpby]
  simp only [backend.axpby, backend.spmv]
  ring

theorem iterate_step_resInv (j : ℕ) (st : CGState n α) (h : resInv st) :
    resInv (cg_step^[j] st) := by
  induction j generalizing st with
  | zero => exact h
  | succ j ih =>
      rw [Function.iterate_succ_apply]
      exact ih _ (cg_step_resInv st h)

/-! ### Characterizing the loop and the whole call -/

/-- When the continuation condition fails, the loop exits at once, with
the residual it just computed, no matter how much fuel remains. -/
theorem cg_loop_exit (nrm : Vec n α → α) (N : α) (fuel : ℕ) (st : CGState n α)
    (h : ¬ cg_cond nrm N st) :
    cg_loop nrm N fuel st = (st, nrm st.r / N) := by
  cases fuel with
  | zero => rfl
  | succ fuel => simp [cg_loop, h]

/-- The loop runs the body exactly `j` times for some `j ≤ fuel`: the
condition held before each of the `j` executed rounds, the returned
residual is the one computed by the last check, and if fuel remains at
exit then the condition failed there. -/
theorem cg_loop_eq (nrm : Vec n α → α) (N : α) :
    ∀ (fuel : ℕ) (st : CGState n α),
      ∃ j, j ≤ fuel ∧
        (cg_loop nrm N fuel st).1 = cg_step^[j] st ∧
        (cg_loop nrm N fuel st).2 = nrm ((cg_step^[j] st).r) / N ∧
        (∀ i < j, cg_cond nrm N (cg_step^[i] st)) ∧
        (j < fuel → ¬ cg_cond nrm N (cg_step^[j] st)) := by
  intro fuel
  induction fuel with
  | zero =>
      intro st
      exact ⟨0, le_refl 0, rfl, rfl, by omega, by omega⟩
  | succ f ih =>
      intro st
      by_cases hc : cg_cond nrm N st
      · obtain ⟨j, hj, h1, h2, h3, h4⟩ := ih (cg_step st)
        refine ⟨j + 1, by omega, ?_, ?_, ?_, ?_⟩
        · rw [Function.iterate_succ_apply]
          rw [← h1]
          simp [cg_loop, hc]
        · rw [Function.iterate_succ_apply]
          rw [← h2]
          simp [cg_loop, hc]
        · intro i hi
          cases i with
          | zero => simpa using hc
          | succ i =>
              rw [Function.iterate_succ_apply]
              exact h3 i (by omega)
        · intro hlt
          rw [Function.iterate_succ_apply]
          exact h4 (by omega)
      · refine ⟨0, Nat.zero_le _, ?_, ?_, by omega, fun _ => by simpa using hc⟩
        · simp [cg_loop, hc]
        · simp [cg_loop, hc]

/-- Characterization of a four-argument call with a nonzero right-hand
side: it returns after some `k ≤ maxiter` loop rounds, its final state is
the `k`-fold image of the initial state under the loop body, the returned
count is `k`, the returned residual is the last checked one, the
condition held before every executed round, and at exit either the
residual check passed or the iteration budget is exhausted. -/
theorem cg_solve_eq (nrm : Vec n α → α) (st0 : CGState n α)
    (h : nrm st0.rhs ≠ 0) :
    ∃ k, k ≤ st0.prm.maxiter ∧
      (cg_solve nrm st0).1 = cg_step^[k] (cg_init st0) ∧
      (cg_solve nrm st0).2.1 = k ∧
      (cg_solve nrm st0).2.2 =
        nrm ((cg_step^[k] (cg_init st0)).r) / nrm st0.rhs ∧
      (∀ i < k, cg_cond nrm (nrm st0.rhs) (cg_step^[i] (cg_init st0))) ∧
      ((cg_solve nrm st0).2.2 ≤ st0.prm.tol ∨ k = st0.prm.maxiter) := by
  have hrhs : (cg_init st0).rhs = st0.rhs := rfl
  have hprm : (cg_init st0).prm = st0.prm := rfl
  obtain ⟨j, hj, h1, h2, h3, h4⟩ :=
    cg_loop_eq nrm (nrm st0.rhs) st0.prm.maxiter (cg_init st0)
  have hsolve : cg_solve nrm st0 =
      ((cg_loop nrm (nrm st0.rhs) st0.prm.maxiter (cg_init st0)).1,
       (cg_loop nrm (nrm st0.rhs) st0.prm.maxiter (cg_init st0)).1.iter,
       (cg_loop nrm (nrm st0.rhs) st0.prm.maxiter (cg_init st0)).2) := by
    simp only [cg_solve, hrhs, hprm, if_neg h]
  refine ⟨j, hj, ?_, ?_, ?_, h3, ?_⟩
  · rw [hsolve]; exact h1
  · rw [hsolve]
    simp only
    rw [h1, iterate_step_iter]
    simp [cg_init]
  · rw [hsolve]; exact h2
  · rcases Nat.lt_or_ge j st0.prm.maxiter with hlt | hge
    · left
      have hnc := h4 hlt
      have hiter : (cg_step^[j] (cg_init st0)).iter = j := by
        rw [iterate_step_iter]; simp [cg_init]
      have hprm' : (cg_step^[j] (cg_init st0)).prm = st0.prm := by
        rw [iterate_step_prm]; exact hprm
      rw [cg_cond, not_and_or] at hnc
      rcases hnc with hres | hit
      · rw [hsolve]
        simp only
        rw [h2]
        rw [hprm'] at hres
        exact le_of_not_lt hres
      · exact absurd (by rw [hiter, hprm']; exact hlt) hit
    · right; omega

/-- A call whose right-hand side has zero norm takes the short-circuit
branch: clear `x`, return `(0, norm_of_rhs)`. -/
theorem cg_solve_zero (nrm : Vec n α → α) (st0 : CGState n α)
    (h : nrm st0.rhs = 0) :
    cg_solve nrm st0 =
      ({ cg_init st0 with x := backend.clear (cg_init st0).x }, 0,
       nrm st0.rhs) := by
  have hr : (cg_init st0).rhs = st0.rhs := rfl
  simp only [cg_solve, hr]
  rw [if_pos h]

/-- The loop body always stores the previous `rho1` into `rho2`. -/
theorem cg_step_rho2 (st : CGState n α) : (cg_step st).rho2 = st.rho1 := rfl

/-- The loop body always updates `x` by `x := alpha·p + x` with
`alpha = rho1 / ⟨q, p⟩` formed by an unconditional division — there is no
case split on the divisor `⟨q, p⟩`. -/
theorem cg_step_x_formula (st : CGState n α) :
    (cg_step st).x = backend.axpby
      ((cg_step st).rho1 /
        backend.inner_product (cg_step st).q (cg_step st).p)
      (cg_step st).p 1 st.x := rfl

/-- On every round past the first, the loop body updates the search
direction by `p := 1·s + (rho1/rho2)·p` with an unconditional division —
there is no case split on the divisor `rho2`. -/
theorem cg_step_p_formula (st : CGState n α) (h : st.iter ≠ 0) :
    (cg_step st).p = backend.axpby 1 (st.P st.r)
      ((cg_step st).rho1 / (cg_step st).rho2) st.p := by
  simp only [cg_step]
  rw [if_pos h]

/-! ### The loop body is exactly the preconditioned-CG step -/

/-- The transcription of the loop body through the backend primitives
coincides with the step as worded in the specification. -/
theorem cg_step_eq_claimStep (st : CGState n α) : cg_step st = claimStep st := by
  obtain ⟨A, P, rhs, x, r, s, p, q, rho1, rho2, iter, prm⟩ := st
  by_cases h0 : iter = 0
  · simp only [cg_step, claimStep, backend.axpby, backend.copy, backend.spmv,
      backend.mulVec, backend.inner_product, h0, ne_eq, not_true_eq_false,
      if_false, ite_true, ite_false, one_mul, zero_mul, add_zero,
      CGState.mk.injEq, true_and, and_true]
    refine ⟨?_, ?_, ?_⟩ <;> funext i <;>
      simp only [backend.axpby, backend.spmv, backend.mulVec, one_mul,
        zero_mul, add_zero] <;> ring
  · simp only [cg_step, claimStep, backend.axpby, backend.copy, backend.spmv,
      backend.mulVec, backend.inner_product, h0, ne_eq, not_false_eq_true,
      if_true, ite_true, ite_false, one_mul, zero_mul, add_zero,
      CGState.mk.injEq, true_and, and_true]
    refine ⟨?_, ?_, ?_, ?_⟩ <;> funext i <;>
      simp only [backend.axpby, backend.spmv, backend.mulVec, one_mul,
        zero_mul, add_zero] <;> ring

/-! ### Claim theorems -/

/-- C1: for every four-argument call with nonzero right-hand side, each
executed loop iteration performs exactly the preconditioned-CG step in the
order `s := P(r)`; `rho2 := rho1`; `rho1 := ⟨r,s⟩`; `p := s` (first round)
or `p := s + (rho1/rho2)·p`; `q := A·p`; `alpha := rho1/⟨q,p⟩`;
`x := x + alpha·p`; `r := r - alpha·q`; `iter := iter + 1`; and the final
state of the call is the iterated image of the initial state under that
step. -/
theorem cg_executes_pcg_iterations (nrm : Vec n α → α) (st0 : CGState n α)
    (h : nrm st0.rhs ≠ 0) :
    (∀ i < (cg_solve nrm st0).2.1,
        cg_step^[i + 1] (cg_init st0) = claimStep (cg_step^[i] (cg_init st0))) ∧
    (cg_solve nrm st0).1 = claimStep^[(cg_solve nrm st0).2.1] (cg_init st0) := by
  have hfun : (cg_step : CGState n α → CGState n α) = claimStep :=
    funext cg_step_eq_claimStep
  constructor
  · intro i _
    rw [Function.iterate_succ_apply', cg_step_eq_claimStep]
  · obtain ⟨k, hk, hfin, hiter, hres, hcond, hexit⟩ := cg_solve_eq nrm st0 h
    rw [hiter, hfin, hfun]

/-- C2: with a nonzero right-hand side, the call stops exactly when the
relative residual computed at the top of the loop is at most `tol` or the
counter reaches `maxiter`; the returned count never exceeds `maxiter`,
the returned residual is the value of the last stopping check on the exit
state's `r` (not recomputed), at exit the residual check passed or the
budget is exhausted, and before every executed round the check had
failed. -/
theorem cg_stopping_criterion (nrm : Vec n α → α) (st0 : CGState n α)
    (h : nrm st0.rhs ≠ 0) :
    (cg_solve nrm st0).2.1 ≤ st0.prm.maxiter ∧
    (cg_solve nrm st0).2.2 = nrm ((cg_solve nrm st0).1.r) / nrm st0.rhs ∧
    ((cg_solve nrm st0).2.2 ≤ st0.prm.tol ∨
      (cg_solve nrm st0).2.1 = st0.prm.maxiter) ∧
    (∀ i < (cg_solve nrm st0).2.1,
        st0.prm.tol < nrm ((cg_step^[i] (cg_init st0)).r) / nrm st0.rhs) := by
  obtain ⟨k, hk, hfin, hiter, hres, hcond, hexit⟩ := cg_solve_eq nrm st0 h
  refine ⟨by omega, ?_, ?_, ?_⟩
  · rw [hres, hfin]
  · rcases hexit with he | he
    · exact Or.inl he
    · exact Or.inr (by omega)
  · intro i hi
    have h1 := (hcond i (by omega)).1
    rw [iterate_step_prm] at h1
    simpa [cg_init] using h1

/-- C3: when the norm of the right-hand side is zero, the call clears `x`
to the all-zero vector and returns `(iterations = 0, residual = 0)`
without executing any iteration, whatever the initial `x` was. -/
theorem cg_zero_rhs_short_circuit (nrm : Vec n α → α) (st0 : CGState n α)
    (h : nrm st0.rhs = 0) :
    (cg_solve nrm st0).1.x = (fun _ => 0) ∧
    (cg_solve nrm st0).2.1 = 0 ∧ (cg_solve nrm st0).2.2 = 0 := by
  have hsolve := cg_solve_zero nrm st0 h
  refine ⟨?_, ?_, ?_⟩
  · rw [hsolve]
    funext i
    simp [backend.clear]
  · rw [hsolve]
  · rw [hsolve]
    simpa using h

/-- C4: the three-argument call is exactly the four-argument call on
`A := P.top_matrix()`, with the same preconditioner, right-hand side and
initial `x`; in particular it returns the same `(iterations, residual)`
pair and the same final state. -/
theorem cg_three_arg_delegates (nrm : Vec n α → α) (pr : Precond n α)
    (st : CGState n α) :
    cg_solve3 nrm pr st
      = cg_solve nrm { st with A := pr.top_matrix, P := pr.apply } := rfl

/-- C5 (amended): when `maxiter = 0` and the right-hand side has nonzero
norm, the call returns `iterations = 0` with the relative residual
computed from the unmodified initial `x`, and leaves `x` unchanged. -/
theorem cg_maxiter_zero_initial_residual (nrm : Vec n α → α)
    (st0 : CGState n α) (h : nrm st0.rhs ≠ 0) (h0 : st0.prm.maxiter = 0) :
    (cg_solve nrm st0).2.1 = 0 ∧
    (cg_solve nrm st0).2.2
      = nrm (backend.residual st0.rhs st0.A st0.x) / nrm st0.rhs ∧
    (cg_solve nrm st0).1.x = st0.x := by
  obtain ⟨k, hk, hfin, hiter, hres, hcond, hexit⟩ := cg_solve_eq nrm st0 h
  have hk0 : k = 0 := by omega
  subst hk0
  refine ⟨hiter, ?_, ?_⟩
  · rw [hres]
    simp [cg_init]
  · rw [hfin]
    simp [cg_init]

/-- C7: both call forms leave the system matrix, the preconditioner, the
right-hand side and the solver parameters untouched: the final state
carries them unchanged (for the three-argument form, the matrix in use is
`P.top_matrix()` and the preconditioner is `P`, both as supplied). -/
theorem cg_mutates_only_x_and_scratch (nrm : Vec n α → α)
    (st0 : CGState n α) (pr : Precond n α) (st1 : CGState n α) :
    ((cg_solve nrm st0).1.A = st0.A ∧ (cg_solve nrm st0).1.P = st0.P ∧
     (cg_solve nrm st0).1.rhs = st0.rhs ∧
     (cg_solve nrm st0).1.prm = st0.prm) ∧
    ((cg_solve3 nrm pr st1).1.A = pr.top_matrix ∧
     (cg_solve3 nrm pr st1).1.P = pr.apply ∧
     (cg_solve3 nrm pr st1).1.rhs = st1.rhs ∧
     (cg_solve3 nrm pr st1).1.prm = st1.prm) := by
  have main : ∀ st : CGState n α,
      (cg_solve nrm st).1.A = st.A ∧ (cg_solve nrm st).1.P = st.P ∧
      (cg_solve nrm st).1.rhs = st.rhs ∧ (cg_solve nrm st).1.prm = st.prm := by
    intro st
    by_cases hN : nrm st.rhs = 0
    · have hr : (cg_init st).rhs = st.rhs := rfl
      have hsolve : cg_solve nrm st =
          ({ cg_init st with x := backend.clear (cg_init st).x }, 0,
           nrm st.rhs) := by
        simp only [cg_solve, hr]
        rw [if_pos hN]
      rw [hsolve]
      simp [cg_init]
    · obtain ⟨k, hk, hfin, _, _, _, _⟩ := cg_solve_eq nrm st hN
      rw [hfin, iterate_step_A, iterate_step_P, iterate_step_rhs,
        iterate_step_prm]
      simp [cg_init]
  have h3 := main { st1 with A := pr.top_matrix, P := pr.apply }
  exact ⟨main st0, by simpa [cg_solve3] using h3⟩

/-- C8: once a call with nonzero right-hand side has converged (returned
residual at most `tol`), calling solve again on the resulting state — same
matrix, preconditioner, right-hand side and parameters, starting from the
already-converged `x` — returns `iterations = 0` with the same residual
and leaves `x` unchanged. -/
theorem cg_idempotent_after_convergence (nrm : Vec n α → α)
    (st0 : CGState n α) (h : nrm st0.rhs ≠ 0)
    (hconv : (cg_solve nrm st0).2.2 ≤ st0.prm.tol) :
    (cg_solve nrm (cg_solve nrm st0).1).2.1 = 0 ∧
    (cg_solve nrm (cg_solve nrm st0).1).2.2 = (cg_solve nrm st0).2.2 ∧
    (cg_solve nrm (cg_solve nrm st0).1).1.x = (cg_solve nrm st0).1.x := by
  obtain ⟨k, hk, hfin, hiter, hres, hcond, hexit⟩ := cg_solve_eq nrm st0 h
  set st1 := (cg_solve nrm st0).1 with hst1
  have hrhs1 : st1.rhs = st0.rhs := by
    rw [hfin, iterate_step_rhs]
    rfl
  have hprm1 : st1.prm = st0.prm := by
    rw [hfin, iterate_step_prm]
    rfl
  have hinv : resInv st1 := by
    rw [hfin]
    exact iterate_step_resInv k (cg_init st0) rfl
  have hr2 : (cg_init st1).r = st1.r := hinv.symm
  have hresval : nrm st1.r / nrm st0.rhs = (cg_solve nrm st0).2.2 := by
    rw [hres, hfin]
  have hrr : (cg_init st1).rhs = st1.rhs := rfl
  have hnc : ¬ cg_cond nrm (nrm st0.rhs) (cg_init st1) := by
    intro hc
    have h1 := hc.1
    rw [hr2] at h1
    have h2 : (cg_init st1).prm.tol = st0.prm.tol := by
      have h3 : (cg_init st1).prm = st1.prm := rfl
      rw [h3, hprm1]
    rw [h2, hresval] at h1
    exact absurd h1 (not_lt.mpr hconv)
  have hsolve2 : cg_solve nrm st1 =
      (cg_init st1, (cg_init st1).iter, nrm (cg_init st1).r / nrm st0.rhs) := by
    simp only [cg_solve, hrr, hrhs1]
    rw [if_neg h, cg_loop_exit _ _ _ _ hnc]
  rw [hsolve2]
  refine ⟨rfl, ?_, rfl⟩
  simp only
  rw [hr2, hresval]

/-- Changing only the parameter record of a state commutes with the loop
body (the body never reads `prm`). -/
theorem cg_step_set_prm (st : CGState n α) (p : Params α) :
    cg_step { st with prm := p } = { cg_step st with prm := p } := rfl

/-- If a run of the loop ends with a residual within its tolerance, then
rerunning it from the same state with any enlarged iteration budget
`m2 ≥ maxiter` (and enough fuel) traverses the same rounds and returns the
same exit state and residual. -/
theorem cg_loop_mono (nrm : Vec n α → α) (N : α) :
    ∀ (fuel1 : ℕ) (st : CGState n α) (fuel2 m2 : ℕ),
      (cg_loop nrm N fuel1 st).2 ≤ st.prm.tol →
      st.prm.maxiter ≤ m2 → m2 - st.iter ≤ fuel2 →
      cg_loop nrm N fuel2 { st with prm := ⟨m2, st.prm.tol⟩ }
        = ({ (cg_loop nrm N fuel1 st).1 with prm := ⟨m2, st.prm.tol⟩ },
           (cg_loop nrm N fuel1 st).2) := by
  intro fuel1
  induction fuel1 with
  | zero =>
      intro st fuel2 m2 hle hm hf
      have hnc : ¬ cg_cond nrm N { st with prm := ⟨m2, st.prm.tol⟩ } := by
        intro hc
        exact absurd hc.1 (not_lt.mpr hle)
      rw [cg_loop_exit _ _ _ _ hnc]
      rfl
  | succ f ih =>
      intro st fuel2 m2 hle hm hf
      by_cases hc : cg_cond nrm N st
      · have hstep : cg_loop nrm N (f + 1) st = cg_loop nrm N f (cg_step st) := by
          simp [cg_loop, hc]
        rw [hstep] at hle ⊢
        have hm2 : st.iter < m2 := lt_of_lt_of_le hc.2 hm
        cases fuel2 with
        | zero => omega
        | succ f2 =>
            have hc2 : cg_cond nrm N { st with prm := ⟨m2, st.prm.tol⟩ } :=
              ⟨hc.1, hm2⟩
            have hstep2 : cg_loop nrm N (f2 + 1) { st with prm := ⟨m2, st.prm.tol⟩ }
                = cg_loop nrm N f2 (cg_step { st with prm := ⟨m2, st.prm.tol⟩ }) := by
              simp [cg_loop, hc2]
            rw [hstep2, cg_step_set_prm]
            have hle' : (cg_loop nrm N f (cg_step st)).2 ≤ (cg_step st).prm.tol := by
              rw [cg_step_prm]; exact hle
            have hm' : (cg_step st).prm.maxiter ≤ m2 := by
              rw [cg_step_prm]; exact hm
            have hf' : m2 - (cg_step st).iter ≤ f2 := by
              rw [cg_step_iter]; omega
            have := ih (cg_step st) f2 m2 hle' hm' hf'
            rw [cg_step_prm] at this
            exact this
      · have h1 : cg_loop nrm N (f + 1) st = (st, nrm st.r / N) :=
          cg_loop_exit _ _ _ _ hc
        rw [h1] at hle ⊢
        have hnc2 : ¬ cg_cond nrm N { st with prm := ⟨m2, st.prm.tol⟩ } := by
          intro hcc
          exact absurd hcc.1 (not_lt.mpr hle)
        rw [cg_loop_exit _ _ _ _ hnc2]

/-- C9 (amended): for a fixed system, once the call with budget
`maxiter = m1` has converged (returned residual at most `tol`), every call
with a larger budget `m2 ≥ m1` returns the same iteration count and the
same residual — in particular the residual does not increase. -/
theorem cg_maxiter_monotone_after_convergence (nrm : Vec n α → α)
    (st0 : CGState n α) (m2 : ℕ) (h : nrm st0.rhs ≠ 0)
    (hconv : (cg_solve nrm st0).2.2 ≤ st0.prm.tol)
    (hm : st0.prm.maxiter ≤ m2) :
    (cg_solve nrm { st0 with prm := ⟨m2, st0.prm.tol⟩ }).2.1
      = (cg_solve nrm st0).2.1 ∧
    (cg_solve nrm { st0 with prm := ⟨m2, st0.prm.tol⟩ }).2.2
      = (cg_solve nrm st0).2.2 ∧
    (cg_solve nrm { st0 with prm := ⟨m2, st0.prm.tol⟩ }).2.2
      ≤ (cg_solve nrm st0).2.2 := by
  have hr : (cg_init st0).rhs = st0.rhs := rfl
  have hp : (cg_init st0).prm = st0.prm := rfl
  have hr2 : (cg_init { st0 with prm := (⟨m2, st0.prm.tol⟩ : Params α) }).rhs
      = st0.rhs := rfl
  have hp2 : (cg_init { st0 with prm := (⟨m2, st0.prm.tol⟩ : Params α) }).prm
      = (⟨m2, st0.prm.tol⟩ : Params α) := rfl
  have hinit2 : cg_init { st0 with prm := (⟨m2, st0.prm.tol⟩ : Params α) }
      = { cg_init st0 with prm := (⟨m2, st0.prm.tol⟩ : Params α) } := rfl
  have hsolve1 : cg_solve nrm st0 =
      ((cg_loop nrm (nrm st0.rhs) st0.prm.maxiter (cg_init st0)).1,
       (cg_loop nrm (nrm st0.rhs) st0.prm.maxiter (cg_init st0)).1.iter,
       (cg_loop nrm (nrm st0.rhs) st0.prm.maxiter (cg_init st0)).2) := by
    simp only [cg_solve, hr, hp]
    rw [if_neg h]
  have hsolve2 : cg_solve nrm { st0 with prm := ⟨m2, st0.prm.tol⟩ } =
      ((cg_loop nrm (nrm st0.rhs) m2
          { cg_init st0 with prm := ⟨m2, st0.prm.tol⟩ }).1,
       (cg_loop nrm (nrm st0.rhs) m2
          { cg_init st0 with prm := ⟨m2, st0.prm.tol⟩ }).1.iter,
       (cg_loop nrm (nrm st0.rhs) m2
          { cg_init st0 with prm := ⟨m2, st0.prm.tol⟩ }).2) := by
    simp only [cg_solve, hinit2, hr, hp]
    rw [if_neg h]
  have hle : (cg_loop nrm (nrm st0.rhs) st0.prm.maxiter (cg_init st0)).2
      ≤ (cg_init st0).prm.tol := by
    rw [hsolve1] at hconv
    exact hconv
  have hmono := cg_loop_mono nrm (nrm st0.rhs) st0.prm.maxiter (cg_init st0)
    m2 m2 hle hm (by simp [cg_init])
  rw [hsolve1, hsolve2]
  have hinit : ({ cg_init st0 with prm := ⟨m2, st0.prm.tol⟩ } : CGState n α)
      = { cg_init st0 with prm := ⟨m2, (cg_init st0).prm.tol⟩ } := rfl
  rw [hinit, hmono]
  exact ⟨rfl, rfl, le_refl _⟩

/-- C10: default-constructed solver parameters are `maxiter = 100` and
`tol = 1e-8` (modelled exactly as `10⁻⁸`), and a call running with the
default parameters uses exactly these two values in its stopping checks:
it runs at most `100` iterations and at exit either the residual is at
most `10⁻⁸` or exactly `100` iterations were used. -/
theorem cg_default_parameters :
    (Params.mkDefault : Params α).maxiter = 100 ∧
    (Params.mkDefault : Params α).tol = 1 / 10 ^ 8 ∧
    ∀ (nrm : Vec n α → α) (st0 : CGState n α),
      st0.prm = Params.mkDefault → nrm st0.rhs ≠ 0 →
      ((cg_solve nrm st0).2.1 ≤ 100 ∧
       ((cg_solve nrm st0).2.2 ≤ 1 / 10 ^ 8 ∨
        (cg_solve nrm st0).2.1 = 100)) := by
  refine ⟨rfl, rfl, ?_⟩
  intro nrm st0 hprm h
  obtain ⟨k, hk, hfin, hiter, hres, hcond, hexit⟩ := cg_solve_eq nrm st0 h
  constructor
  · rw [hiter]
    rw [hprm] at hk
    simpa [Params.mkDefault] using hk
  · rcases hexit with he | he
    · left
      rw [hprm] at he
      simpa [Params.mkDefault] using he
    · right
      rw [hprm] at he
      simp only [Params.mkDefault] at he
      omega

/-! ### Evaluations on the concrete instances -/

/-- The rational Euclidean norm is exact on squares. -/
theorem nrmEuclid_eq {n : ℕ} (v : Vec n ℚ) (s : ℚ) (h0 : 0 ≤ s)
    (h : (∑ i, v i * v i) = s * s) : nrmEuclid v = s := by
  rw [nrmEuclid, h, Rat.sqrt_eq, abs_of_nonneg h0]

theorem nrmEuclid_one : nrmEuclid (![1] : Vec 1 ℚ) = 1 := by
  refine nrmEuclid_eq _ 1 (by norm_num) ?_
  simp [Fin.sum_univ_one]

theorem nrmEuclid_zero : nrmEuclid (![0] : Vec 1 ℚ) = 0 := by
  refine nrmEuclid_eq _ 0 (by norm_num) ?_
  simp [Fin.sum_univ_one]

theorem nrmEuclid_fourthree : nrmEuclid (![4, 3] : Vec 2 ℚ) = 5 := by
  refine nrmEuclid_eq _ 5 (by norm_num) ?_
  simp [Fin.sum_univ_two]
  norm_num

theorem nrmEuclid_mono_step :
    nrmEuclid (![162 / 53, -216 / 53] : Vec 2 ℚ) = 270 / 53 := by
  refine nrmEuclid_eq _ (270 / 53) (by norm_num) ?_
  simp [Fin.sum_univ_two]
  norm_num

theorem stUnit_init_r (m : ℕ) (tol : ℚ) :
    (cg_init (stUnit m tol)).r = ![1] := by
  funext i
  fin_cases i <;>
    simp [cg_init, stUnit, backend.residual, backend.mulVec, Fin.sum_univ_one]

theorem stZeroMat_init_r : (cg_init stZeroMat).r = ![1] := by
  funext i
  fin_cases i <;>
    simp [cg_init, stZeroMat, backend.residual, backend.mulVec,
      Fin.sum_univ_one]

theorem stZeroPre_init_r : (cg_init stZeroPre).r = ![1] := by
  funext i
  fin_cases i <;>
    simp [cg_init, stZeroPre, backend.residual, backend.mulVec,
      Fin.sum_univ_one]

theorem stZeroPre_step_r : (cg_step (cg_init stZeroPre)).r = ![1] := by
  funext i
  fin_cases i <;>
    simp [cg_step, cg_init, stZeroPre, backend.residual, backend.mulVec,
      backend.inner_product, backend.axpby, backend.spmv, backend.copy,
      Fin.sum_univ_one]

theorem stMono_init_r (m : ℕ) : (cg_init (stMono m)).r = ![4, 3] := by
  funext i
  fin_cases i <;>
    simp [cg_init, stMono, backend.residual, backend.mulVec,
      Fin.sum_univ_two]

theorem stMono_step_r :
    (cg_step (cg_init (stMono 1))).r = ![162 / 53, -216 / 53] := by
  funext i
  fin_cases i <;>
    simp [cg_step, cg_init, stMono, backend.residual, backend.mulVec,
      backend.inner_product, backend.axpby, backend.spmv, backend.copy,
      Fin.sum_univ_two] <;> norm_num

/-! ### Counterexamples and remaining claim theorems -/

/-- C5 (counterexample): a call with `maxiter = 0` does not always leave
`x` unchanged — with an all-zero right-hand side and `x = [1]`, the
zero-rhs short circuit fires first and overwrites `x` with the zero
vector, so the claim as stated fails at this input. -/
theorem cg_maxiter_zero_claim_cex :
    stZeroRhs.prm.maxiter = 0 ∧
    (cg_solve nrmEuclid stZeroRhs).1.x ≠ stZeroRhs.x := by
  have hz : nrmEuclid stZeroRhs.rhs = 0 := by
    rw [show stZeroRhs.rhs = ![0] from rfl, nrmEuclid_zero]
  refine ⟨rfl, ?_⟩
  rw [cg_solve_zero nrmEuclid stZeroRhs hz]
  intro heq
  have h0 := congrFun heq 0
  simp [backend.clear, stZeroRhs] at h0

/-- C6: the two divisions of the loop body are performed unconditionally,
with no zero-denominator guard, on inputs that actually reach them with a
zero denominator.  With the all-zero matrix, the first round reaches
`alpha := rho1 / ⟨q,p⟩` with `⟨q,p⟩ = 0` and still performs the `x`
update through that division, and the call completes its iteration.  With
the zero preconditioner, the first round ends with `rho1 = 0`, so the
second round reaches `p := 1·s + (rho1/rho2)·p` with `rho2 = 0` and still
performs it, and the call completes both iterations.  (Division is total
in the rational model: `t / 0 = 0` stands in for the unguarded IEEE
division.) -/
theorem cg_division_unguarded :
    (backend.inner_product (cg_step (cg_init stZeroMat)).q
        (cg_step (cg_init stZeroMat)).p = 0 ∧
     (cg_step (cg_init stZeroMat)).x
       = backend.axpby
           ((cg_step (cg_init stZeroMat)).rho1 /
             backend.inner_product (cg_step (cg_init stZeroMat)).q
               (cg_step (cg_init stZeroMat)).p)
           (cg_step (cg_init stZeroMat)).p 1 (cg_init stZeroMat).x ∧
     (cg_solve nrmEuclid stZeroMat).2.1 = 1) ∧
    ((cg_step (cg_step (cg_init stZeroPre))).rho2 = 0 ∧
     (cg_step (cg_step (cg_init stZeroPre))).p
       = backend.axpby 1
           ((cg_step (cg_init stZeroPre)).P (cg_step (cg_init stZeroPre)).r)
           ((cg_step (cg_step (cg_init stZeroPre))).rho1 /
             (cg_step (cg_step (cg_init stZeroPre))).rho2)
           (cg_step (cg_init stZeroPre)).p ∧
     (cg_solve nrmEuclid stZeroPre).2.1 = 2) := by
  have hA : nrmEuclid stZeroMat.rhs ≠ 0 := by
    rw [show stZeroMat.rhs = ![1] from rfl, nrmEuclid_one]
    norm_num
  have hB : nrmEuclid stZeroPre.rhs ≠ 0 := by
    rw [show stZeroPre.rhs = ![1] from rfl, nrmEuclid_one]
    norm_num
  refine ⟨⟨?_, cg_step_x_formula _, ?_⟩, ⟨?_, ?_, ?_⟩⟩
  · simp [cg_step, cg_init, stZeroMat, backend.inner_product, backend.spmv,
      backend.mulVec, backend.axpby, backend.copy, backend.residual,
      Fin.sum_univ_one]
  · obtain ⟨k, hk, hfin, hiter, hres, hcond, hexit⟩ :=
      cg_solve_eq nrmEuclid stZeroMat hA
    have hm : stZeroMat.prm.maxiter = 1 := rfl
    have hk1 : k = 1 := by
      rcases Nat.lt_or_ge k 1 with hlt | hge
      · have hk0 : k = 0 := by omega
        subst hk0
        rcases hexit with he | he
        · rw [hres] at he
          simp only [Function.iterate_zero_apply] at he
          rw [stZeroMat_init_r,
            show stZeroMat.rhs = ![1] from rfl, nrmEuclid_one] at he
          norm_num [show stZeroMat.prm.tol = 0 from rfl] at he
        · rw [hm] at he
          exact absurd he (by norm_num)
      · omega
    rw [hiter, hk1]
  · rw [cg_step_rho2]
    simp [cg_step, cg_init, stZeroPre, backend.inner_product, backend.spmv,
      backend.mulVec, backend.axpby, backend.copy, backend.residual,
      Fin.sum_univ_one]
  · refine cg_step_p_formula _ ?_
    rw [cg_step_iter]
    simp [cg_init]
  · obtain ⟨k, hk, hfin, hiter, hres, hcond, hexit⟩ :=
      cg_solve_eq nrmEuclid stZeroPre hB
    have hm : stZeroPre.prm.maxiter = 2 := rfl
    have hk2 : k = 2 := by
      rcases Nat.lt_or_ge k 2 with hlt | hge
      · rcases Nat.lt_or_ge k 1 with hlt1 | hge1
        · have hk0 : k = 0 := by omega
          subst hk0
          rcases hexit with he | he
          · rw [hres] at he
            simp only [Function.iterate_zero_apply] at he
            rw [stZeroPre_init_r,
              show stZeroPre.rhs = ![1] from rfl, nrmEuclid_one] at he
            norm_num [show stZeroPre.prm.tol = 0 from rfl] at he
          · rw [hm] at he
            exact absurd he (by norm_num)
        · have hk1 : k = 1 := by omega
          subst hk1
          rcases hexit with he | he
          · rw [hres] at he
            simp only [Function.iterate_one] at he
            rw [stZeroPre_step_r,
              show stZeroPre.rhs = ![1] from rfl, nrmEuclid_one] at he
            norm_num [show stZeroPre.prm.tol = 0 from rfl] at he
          · rw [hm] at he
            exact absurd he (by norm_num)
      · omega
    rw [hiter, hk2]

/-- C9 (counterexample): the returned relative residual is not monotone
in `maxiter`.  For the system `diag(1, 10)·x = (4, 3)` with identity
preconditioner, `x₀ = 0` and `tol = 1/100` — all inputs equal except the
budget — the call with `maxiter = 0` returns residual `1` while the call
with `maxiter = 1` returns residual `54/53 > 1`. -/
theorem cg_maxiter_monotonicity_cex :
    (stMono 0).A = (stMono 1).A ∧ (stMono 0).P = (stMono 1).P ∧
    (stMono 0).rhs = (stMono 1).rhs ∧ (stMono 0).x = (stMono 1).x ∧
    (stMono 0).prm.tol = (stMono 1).prm.tol ∧
    (stMono 0).prm.maxiter ≤ (stMono 1).prm.maxiter ∧
    (cg_solve nrmEuclid (stMono 0)).2.2
      < (cg_solve nrmEuclid (stMono 1)).2.2 := by
  have hrhs : ∀ m, (stMono m).rhs = ![4, 3] := fun m => rfl
  have hN : ∀ m, nrmEuclid ((stMono m).rhs) = 5 := by
    intro m
    rw [hrhs m, nrmEuclid_fourthree]
  have hne : ∀ m, nrmEuclid ((stMono m).rhs) ≠ 0 := by
    intro m
    rw [hN m]
    norm_num
  have hrun0 : (cg_solve nrmEuclid (stMono 0)).2.2 = 1 := by
    obtain ⟨k, hk, hfin, hiter, hres, hcond, hexit⟩ :=
      cg_solve_eq nrmEuclid (stMono 0) (hne 0)
    have hk0 : k = 0 := by
      have : (stMono 0).prm.maxiter = 0 := rfl
      omega
    subst hk0
    rw [hres]
    simp only [Function.iterate_zero_apply]
    rw [stMono_init_r, hrhs 0, nrmEuclid_fourthree]
    norm_num
  have hrun1 : (cg_solve nrmEuclid (stMono 1)).2.2 = 54 / 53 := by
    obtain ⟨k, hk, hfin, hiter, hres, hcond, hexit⟩ :=
      cg_solve_eq nrmEuclid (stMono 1) (hne 1)
    have hm : (stMono 1).prm.maxiter = 1 := rfl
    have hk1 : k = 1 := by
      rcases Nat.lt_or_ge k 1 with hlt | hge
      · have hk0 : k = 0 := by omega
        subst hk0
        rcases hexit with he | he
        · rw [hres] at he
          simp only [Function.iterate_zero_apply] at he
          rw [stMono_init_r, hrhs 1, nrmEuclid_fourthree] at he
          norm_num [show (stMono 1).prm.tol = 1 / 100 from rfl] at he
        · rw [hm] at he
          exact absurd he (by norm_num)
      · omega
    subst hk1
    rw [hres]
    simp only [Function.iterate_one]
    rw [stMono_step_r, hrhs 1, nrmEuclid_fourthree, nrmEuclid_mono_step]
    norm_num
  exact ⟨rfl, rfl, rfl, rfl, rfl, by norm_num [stMono], by
    rw [hrun0, hrun1]; norm_num⟩

/-! ### Witness instances -/

theorem stUnit_rhs_norm : nrmEuclid ((stUnit 1 1).rhs) ≠ 0 := by
  rw [show (stUnit 1 1).rhs = ![1] from rfl, nrmEuclid_one]
  norm_num

/-- On the unit system with `tol = 1`, the very first stopping check
already passes, so the call returns residual `1`. -/
theorem stUnit_solve_res : (cg_solve nrmEuclid (stUnit 1 1)).2.2 = 1 := by
  obtain ⟨k, hk, hfin, hiter, hres, hcond, hexit⟩ :=
    cg_solve_eq nrmEuclid (stUnit 1 1) stUnit_rhs_norm
  have hk0 : k = 0 := by
    by_contra hne
    have hc := (hcond 0 (by omega)).1
    simp only [Function.iterate_zero_apply] at hc
    rw [stUnit_init_r, show (stUnit 1 1).rhs = ![1] from rfl,
      nrmEuclid_one] at hc
    norm_num [show (cg_init (stUnit 1 1)).prm.tol = 1 from rfl] at hc
  subst hk0
  rw [hres]
  simp only [Function.iterate_zero_apply]
  rw [stUnit_init_r, show (stUnit 1 1).rhs = ![1] from rfl, nrmEuclid_one]
  norm_num

theorem cg_executes_pcg_iterations_witness :
    nrmEuclid ((stUnit 1 1).rhs) ≠ 0 ∧
    ((∀ i < (cg_solve nrmEuclid (stUnit 1 1)).2.1,
        cg_step^[i + 1] (cg_init (stUnit 1 1))
          = claimStep (cg_step^[i] (cg_init (stUnit 1 1)))) ∧
     (cg_solve nrmEuclid (stUnit 1 1)).1
       = claimStep^[(cg_solve nrmEuclid (stUnit 1 1)).2.1]
           (cg_init (stUnit 1 1))) :=
  ⟨stUnit_rhs_norm,
   cg_executes_pcg_iterations nrmEuclid (stUnit 1 1) stUnit_rhs_norm⟩

theorem cg_stopping_criterion_witness :
    nrmEuclid ((stUnit 1 1).rhs) ≠ 0 ∧
    ((cg_solve nrmEuclid (stUnit 1 1)).2.1 ≤ (stUnit 1 1).prm.maxiter ∧
     (cg_solve nrmEuclid (stUnit 1 1)).2.2 =
       nrmEuclid ((cg_solve nrmEuclid (stUnit 1 1)).1.r)
         / nrmEuclid ((stUnit 1 1).rhs) ∧
     ((cg_solve nrmEuclid (stUnit 1 1)).2.2 ≤ (stUnit 1 1).prm.tol ∨
       (cg_solve nrmEuclid (stUnit 1 1)).2.1 = (stUnit 1 1).prm.maxiter) ∧
     (∀ i < (cg_solve nrmEuclid (stUnit 1 1)).2.1,
        (stUnit 1 1).prm.tol <
          nrmEuclid ((cg_step^[i] (cg_init (stUnit 1 1))).r)
            / nrmEuclid ((stUnit 1 1).rhs))) :=
  ⟨stUnit_rhs_norm,
   cg_stopping_criterion nrmEuclid (stUnit 1 1) stUnit_rhs_norm⟩

theorem cg_zero_rhs_short_circuit_witness :
    nrmEuclid stZeroRhs.rhs = 0 ∧
    ((cg_solve nrmEuclid stZeroRhs).1.x = (fun _ => 0) ∧
     (cg_solve nrmEuclid stZeroRhs).2.1 = 0 ∧
     (cg_solve nrmEuclid stZeroRhs).2.2 = 0) := by
  have hz : nrmEuclid stZeroRhs.rhs = 0 := by
    rw [show stZeroRhs.rhs = ![0] from rfl, nrmEuclid_zero]
  exact ⟨hz, cg_zero_rhs_short_circuit nrmEuclid stZeroRhs hz⟩

theorem cg_maxiter_zero_initial_residual_witness :
    nrmEuclid ((stUnit 0 (1 / 2)).rhs) ≠ 0 ∧
    (stUnit 0 (1 / 2)).prm.maxiter = 0 ∧
    ((cg_solve nrmEuclid (stUnit 0 (1 / 2))).2.1 = 0 ∧
     (cg_solve nrmEuclid (stUnit 0 (1 / 2))).2.2
       = nrmEuclid (backend.residual (stUnit 0 (1 / 2)).rhs
           (stUnit 0 (1 / 2)).A (stUnit 0 (1 / 2)).x)
         / nrmEuclid ((stUnit 0 (1 / 2)).rhs) ∧
     (cg_solve nrmEuclid (stUnit 0 (1 / 2))).1.x = (stUnit 0 (1 / 2)).x) := by
  have h : nrmEuclid ((stUnit 0 (1 / 2)).rhs) ≠ 0 := by
    rw [show (stUnit 0 (1 / 2)).rhs = ![1] from rfl, nrmEuclid_one]
    norm_num
  exact ⟨h, rfl,
    cg_maxiter_zero_initial_residual nrmEuclid (stUnit 0 (1 / 2)) h rfl⟩

theorem cg_idempotent_after_convergence_witness :
    nrmEuclid ((stUnit 1 1).rhs) ≠ 0 ∧
    (cg_solve nrmEuclid (stUnit 1 1)).2.2 ≤ (stUnit 1 1).prm.tol ∧
    ((cg_solve nrmEuclid (cg_solve nrmEuclid (stUnit 1 1)).1).2.1 = 0 ∧
     (cg_solve nrmEuclid (cg_solve nrmEuclid (stUnit 1 1)).1).2.2
       = (cg_solve nrmEuclid (stUnit 1 1)).2.2 ∧
     (cg_solve nrmEuclid (cg_solve nrmEuclid (stUnit 1 1)).1).1.x
       = (cg_solve nrmEuclid (stUnit 1 1)).1.x) := by
  have hconv : (cg_solve nrmEuclid (stUnit 1 1)).2.2 ≤ (stUnit 1 1).prm.tol := by
    rw [stUnit_solve_res]
    norm_num [show (stUnit 1 1).prm.tol = 1 from rfl]
  exact ⟨stUnit_rhs_norm, hconv,
    cg_idempotent_after_convergence nrmEuclid (stUnit 1 1)
      stUnit_rhs_norm hconv⟩

theorem cg_maxiter_monotone_after_convergence_witness :
    nrmEuclid ((stUnit 1 1).rhs) ≠ 0 ∧
    (cg_solve nrmEuclid (stUnit 1 1)).2.2 ≤ (stUnit 1 1).prm.tol ∧
    (stUnit 1 1).prm.maxiter ≤ 2 ∧
    ((cg_solve nrmEuclid
        { stUnit 1 1 with prm := ⟨2, (stUnit 1 1).prm.tol⟩ }).2.1
      = (cg_solve nrmEuclid (stUnit 1 1)).2.1 ∧
     (cg_solve nrmEuclid
        { stUnit 1 1 with prm := ⟨2, (stUnit 1 1).prm.tol⟩ }).2.2
      = (cg_solve nrmEuclid (stUnit 1 1)).2.2 ∧
     (cg_solve nrmEuclid
        { stUnit 1 1 with prm := ⟨2, (stUnit 1 1).prm.tol⟩ }).2.2
      ≤ (cg_solve nrmEuclid (stUnit 1 1)).2.2) := by
  have hconv : (cg_solve nrmEuclid (stUnit 1 1)).2.2 ≤ (stUnit 1 1).prm.tol := by
    rw [stUnit_solve_res]
    norm_num [show (stUnit 1 1).prm.tol = 1 from rfl]
  have hm : (stUnit 1 1).prm.maxiter ≤ 2 := by
    norm_num [show (stUnit 1 1).prm.maxiter = 1 from rfl]
  exact ⟨stUnit_rhs_norm, hconv, hm,
    cg_maxiter_monotone_after_convergence nrmEuclid (stUnit 1 1) 2
      stUnit_rhs_norm hconv hm⟩

theorem cg_default_parameters_witness :
    stUnitDefault.prm = Params.mkDefault ∧
    nrmEuclid stUnitDefault.rhs ≠ 0 ∧
    ((cg_solve nrmEuclid stUnitDefault).2.1 ≤ 100 ∧
     ((cg_solve nrmEuclid stUnitDefault).2.2 ≤ 1 / 10 ^ 8 ∨
      (cg_solve nrmEuclid stUnitDefault).2.1 = 100)) := by
  have h : nrmEuclid stUnitDefault.rhs ≠ 0 := by
    rw [show stUnitDefault.rhs = ![1] from rfl, nrmEuclid_one]
    norm_num
  exact ⟨rfl, h, cg_default_parameters.2.2 nrmEuclid stUnitDefault rfl h⟩

end amgcl
